import Mathlib

/-!
# Verification of the LOGAN agent-chat scripts

Shallow embedding of the message-delivery core of the two Python scripts
`scripts/agent-chat-poll.py` (polling mode) and `scripts/agent-chat-sse.py`
(streaming mode), together with proofs about the router / termination
protocol, the stream frame parser, the polling cursor, and the bootstrap
gate.

Texts and raw stream bytes are modelled as `List Char` (one list element
per unit returned by `resp.read(1)`; the traffic in question is ASCII).
JSON decoding (`json.loads`) is an external library call; the frame parser
is therefore parameterised by an arbitrary decoder
`d : List Char → Option α` (`none` models a raised `JSONDecodeError`).
-/

/-! ## Python string primitives used by the scripts -/

/-- Python `str.lower()` on the ASCII texts exchanged by the scripts
(`Char.toLower` lowercases exactly the ASCII uppercase letters). -/
def pyLower (s : List Char) : List Char := s.map Char.toLower

/-- The whitespace characters removed by Python `str.strip()`. -/
def isPyWs (c : Char) : Bool :=
  c == ' ' || c == '\t' || c == '\n' || c == '\r' || c == '\x0b' || c == '\x0c'

/-- Python `str.strip()`: drop leading and trailing whitespace. -/
def pyStrip (s : List Char) : List Char :=
  ((s.dropWhile isPyWs).reverse.dropWhile isPyWs).reverse

/-- Python `str.split("\n")`: split on every newline, keeping empty pieces
(`"".split("\n") == [""]`). -/
def splitNL : List Char → List (List Char)
  | [] => [[]]
  | '\n' :: rest => [] :: splitNL rest
  | c :: rest =>
    match splitNL rest with
    | [] => [[c]]
    | l :: ls => (c :: l) :: ls

/-- Python `needle in haystack` needs `startswith` at each position:
`startsWithL n h` is `h.startswith(n)`. -/
def startsWithL : List Char → List Char → Bool
  | [], _ => true
  | _ :: _, [] => false
  | a :: n, b :: h => a == b && startsWithL n h

/-- Python's substring operator `n in h` (contiguous substring test). -/
def isSubL (n : List Char) : List Char → Bool
  | [] => startsWithL n []
  | b :: t => startsWithL n (b :: t) || isSubL n t

/-- `h = l ++ n ++ r` for some `l`, `r`: the specification-level meaning of
"`n` occurs in `h` as a substring". -/
def IsSub (n h : List Char) : Prop := ∃ l r, h = l ++ n ++ r

/-- `line.startswith("data: ")` returning `line[6:]` on success
(lines 101–103 of `agent-chat-sse.py`). -/
def dataPayload : List Char → Option (List Char)
  | 'd' :: 'a' :: 't' :: 'a' :: ':' :: ' ' :: rest => some rest
  | _ => none

/-- Concrete JSON decoder fragment standing in for `json.loads` on
non-negative integer literal payloads: succeeds exactly on a nonempty
all-digit string (`json.loads("1") == 1`, `json.loads("x")` raises). -/
def parseDigits (s : List Char) : Option Nat :=
  if s.isEmpty then none
  else if s.all Char.isDigit then
    some (s.foldl (fun a c => a * 10 + (c.toNat - 48)) 0)
  else none

/-! ## Message Router / Termination Protocol

`handle_message` in `agent-chat-sse.py` (lines 69–75); the polling main
loop inlines the identical branch (`agent-chat-poll.py` lines 113–117). -/

/-- The fixed farewell text sent on the goodbye path. -/
def farewellText : List Char := "Goodbye! Disconnecting.".toList

/-- The echo acknowledgement `"Received: " + text`. -/
def receivedText (text : List Char) : List Char := "Received: ".toList ++ text

/-- `"goodbye" in text.lower() or "bye" in text.lower()`. -/
def isTerminate (text : List Char) : Bool :=
  isSubL "goodbye".toList (pyLower text) || isSubL "bye".toList (pyLower text)

/-- Observable outcome of routing one inbound user message: the outbound
sends it performs, and whether the session terminates (polling loop
`return` / streaming `sys.exit(0)`). -/
structure RouterOut where
  sends : List (List Char)
  terminated : Bool
deriving DecidableEq, Repr

/-- The shared router / termination protocol applied to an inbound user
message's text. -/
def routerStep (text : List Char) : RouterOut :=
  if isTerminate text then ⟨[farewellText], true⟩
  else ⟨[receivedText text], false⟩

/-! ## Stream Frame Parser (`listen_sse`, `agent-chat-sse.py` lines 91–111) -/

/-- Whether the first two characters are both `'\n'`. -/
def twoNL : List Char → Bool
  | a :: b :: _ => a == '\n' && b == '\n'
  | _ => false

/-- Python `buffer.endswith("\n\n")`: the last two characters are both
newlines. -/
def endsNN (l : List Char) : Bool := twoNL l.reverse

/-- Whether `"\n\n"` occurs anywhere in the list. -/
def hasNN : List Char → Bool
  | [] => false
  | a :: t => twoNL (a :: t) || hasNN t

/-- The per-frame loop (lines 100–110): iterate over
`buffer.strip().split("\n")`; each line carrying the `"data: "` marker has
its payload handed to the JSON decoder, a decode failure is swallowed
(`except json.JSONDecodeError: pass`), and decoded values are emitted in
order. -/
def frameEvents {α : Type} (d : List Char → Option α) : List (List Char) → List α
  | [] => []
  | line :: rest =>
    match dataPayload line with
    | none => frameEvents d rest
    | some p =>
      match d p with
      | none => frameEvents d rest
      | some v => v :: frameEvents d rest

/-- Decode one completed frame: strip, split into lines, run the per-frame
loop. -/
def processFrame {α : Type} (d : List Char → Option α) (frame : List Char) : List α :=
  frameEvents d (splitNL (pyStrip frame))

/-- One iteration of the read loop on state `(buffer, events so far)`:
append the one character read, and if the buffer now ends with the
`"\n\n"` terminator, decode the frame and reset the buffer to `""`. -/
def feedChar {α : Type} (d : List Char → Option α)
    (st : List Char × List α) (c : Char) : List Char × List α :=
  if endsNN (st.1 ++ [c]) then ([], st.2 ++ processFrame d (st.1 ++ [c]))
  else (st.1 ++ [c], st.2)

/-- Feed a sequence of characters one at a time, as the loop's
`resp.read(1)` does. -/
def feedStr {α : Type} (d : List Char → Option α)
    (st : List Char × List α) (s : List Char) : List Char × List α :=
  s.foldl (feedChar d) st

/-- Feed the same byte sequence delivered as a list of transport chunks. -/
def feedChunks {α : Type} (d : List Char → Option α)
    (st : List Char × List α) (chunks : List (List Char)) : List Char × List α :=
  chunks.foldl (feedStr d) st

/-! ## Polling mode (`agent-chat-poll.py`) -/

/-- A message as served by `/api/messages`; the `origin` field embeds the
JSON field `"from"` (`from` is a reserved word in Lean). -/
structure Msg where
  origin : String
  text : List Char
  timestamp : Nat
deriving DecidableEq, Repr

/-- Result of one `GET /api/messages?since=...` transport call: `api_get`
collapses every error to `success = false`. -/
structure FetchResult where
  success : Bool
  messages : List Msg
deriving DecidableEq, Repr

/-- `poll_messages` (lines 63–67): a failed fetch yields `[]`; a
successful one is filtered to user-originated messages. -/
def pollMessages (r : FetchResult) : List Msg :=
  if r.success then r.messages.filter (fun m => m.origin == "user") else []

/-- The polling interval constant (`POLL_INTERVAL = 2`). -/
def POLL_INTERVAL : Nat := 2

/-- The sleep before every fetch cycle: the loop always sleeps the same
constant (no backoff). -/
def waitBeforeCycle (_cycle : Nat) : Nat := POLL_INTERVAL

/-- Observable outcome of the inner `for msg in new_msgs` loop of `main`
(lines 108–117): final cursor (`last_ts`), messages dispatched to the
router, outbound sends, and whether the loop returned (goodbye). -/
structure CycleOut where
  cursor : Nat
  dispatched : List Msg
  sends : List (List Char)
  terminated : Bool
deriving DecidableEq, Repr

/-- The inner loop of `main`: `last_ts = msg["timestamp"]` is assigned
before the goodbye test, and the goodbye branch returns immediately. -/
def runBatch (c : Nat) : List Msg → CycleOut
  | [] => ⟨c, [], [], false⟩
  | m :: rest =>
    if (routerStep m.text).terminated then
      ⟨m.timestamp, [m], (routerStep m.text).sends, true⟩
    else
      ⟨(runBatch m.timestamp rest).cursor,
       m :: (runBatch m.timestamp rest).dispatched,
       (routerStep m.text).sends ++ (runBatch m.timestamp rest).sends,
       (runBatch m.timestamp rest).terminated⟩

/-- Observable outcome of a whole polling session over a list of fetch
results. -/
structure SessionOut where
  cursor : Nat
  dispatched : List Msg
  terminated : Bool
deriving DecidableEq, Repr

/-- Run the `while True` polling loop over a sequence of fetch results,
stopping when a cycle hits the goodbye path. -/
def runSession (c : Nat) : List FetchResult → SessionOut
  | [] => ⟨c, [], false⟩
  | f :: fs =>
    if (runBatch c (pollMessages f)).terminated then
      ⟨(runBatch c (pollMessages f)).cursor,
       (runBatch c (pollMessages f)).dispatched, true⟩
    else
      ⟨(runSession (runBatch c (pollMessages f)).cursor fs).cursor,
       (runBatch c (pollMessages f)).dispatched
         ++ (runSession (runBatch c (pollMessages f)).cursor fs).dispatched,
       (runSession (runBatch c (pollMessages f)).cursor fs).terminated⟩

/-- The cursor value observed after each executed fetch cycle. -/
def cursorTrace (c : Nat) : List FetchResult → List Nat
  | [] => []
  | f :: fs =>
    (runBatch c (pollMessages f)).cursor ::
      (if (runBatch c (pollMessages f)).terminated then []
       else cursorTrace (runBatch c (pollMessages f)).cursor fs)

/-- Adjacent timestamps of a batch are non-decreasing (the data model's
per-connection timestamp guarantee). -/
def sortedB : List Msg → Bool
  | [] => true
  | [_] => true
  | a :: b :: t => decide (a.timestamp ≤ b.timestamp) && sortedB (b :: t)

/-- Maximum timestamp over a batch. -/
def maxTs (batch : List Msg) : Nat := (batch.map Msg.timestamp).foldr max 0

/-- The remote honours the assumed contract along a run: each fetched
batch (after the user filter) is sorted by timestamp and `since` is a
strict lower bound on the returned timestamps. -/
def validSeq : Nat → List FetchResult → Bool
  | _, [] => true
  | c, f :: fs =>
    sortedB (pollMessages f)
      && (pollMessages f).all (fun m => decide (c < m.timestamp))
      && validSeq (runBatch c (pollMessages f)).cursor fs

/-! ## Session Bootstrap (`check_status` and the head of `main`) -/

/-- The `status` object of the readiness response; `filePath = none`
models an absent key, `some ""` an empty path (both falsy in
`not status.get("filePath")`). -/
structure StatusPayload where
  filePath : Option String
  totalLines : Nat
deriving DecidableEq, Repr

/-- Result of the `GET /api/status` transport call. -/
inductive StatusResult where
  | failure (err : String)
  | ok (status : StatusPayload)
deriving DecidableEq, Repr

/-- Python truthiness of `status.get("filePath")`. -/
def truthyPath : Option String → Bool
  | none => false
  | some s => !s.isEmpty

/-- `check_status` (lines 70–84): false on transport failure or on a
missing/empty `filePath`. -/
def check_status (r : StatusResult) : Bool :=
  match r with
  | .failure _ => false
  | .ok st => truthyPath st.filePath

/-- The observable bootstrap actions of `main` (lines 94–100). -/
inductive BootAction where
  | registerAgent (name : String)
  | send (text : String)
deriving DecidableEq, Repr

/-- Head of `main`: on a failed readiness check, `sys.exit(1)` before any
registration or send; otherwise register and send the hello message, with
no exit. -/
def bootstrap (r : StatusResult) (name : String) : List BootAction × Option Nat :=
  if check_status r then
    ([.registerAgent name, .send ("Hello! " ++ name ++ " connected via polling.")], none)
  else ([], some 1)

/-! ## Helper lemmas -/

theorem startsWithL_iff (n : List Char) : ∀ h : List Char,
    startsWithL n h = true ↔ ∃ r, h = n ++ r := by
  induction n with
  | nil =>
    intro h
    simp [startsWithL]
  | cons a n ih =>
    intro h
    cases h with
    | nil =>
      simp [startsWithL]
    | cons b t =>
      simp only [startsWithL, Bool.and_eq_true, beq_iff_eq, ih t, List.cons_append,
        List.cons.injEq]
      constructor
      · rintro ⟨rfl, r, rfl⟩
        exact ⟨r, rfl, rfl⟩
      · rintro ⟨r, rfl, rfl⟩
        exact ⟨rfl, r, rfl⟩

theorem isSubL_iff (n : List Char) : ∀ h : List Char,
    isSubL n h = true ↔ IsSub n h := by
  intro h
  induction h with
  | nil =>
    simp only [isSubL, startsWithL_iff, IsSub]
    constructor
    · rintro ⟨r, hr⟩
      exact ⟨[], r, by simpa using hr⟩
    · rintro ⟨l, r, hr⟩
      obtain ⟨hl, hn, hr'⟩ : l = [] ∧ n = [] ∧ r = [] := by simpa using hr
      exact ⟨[], by simp [hn]⟩
  | cons b t ih =>
    simp only [isSubL, Bool.or_eq_true, startsWithL_iff, ih, IsSub]
    constructor
    · rintro (⟨r, hr⟩ | ⟨l, r, rfl⟩)
      · exact ⟨[], r, by simpa using hr⟩
      · exact ⟨b :: l, r, rfl⟩
    · rintro ⟨l, r, hr⟩
      cases l with
      | nil =>
        exact Or.inl ⟨r, by simpa using hr⟩
      | cons x l =>
        rcases List.cons.injEq .. ▸ hr with ⟨rfl, rfl⟩
        exact Or.inr ⟨l, r, rfl⟩

theorem routerStep_terminated (t : List Char) :
    (routerStep t).terminated = isTerminate t := by
  by_cases h : isTerminate t <;> simp [routerStep, h]

theorem frameEvents_eq_filterMap {α : Type} (d : List Char → Option α) :
    ∀ ls : List (List Char),
      frameEvents d ls = ls.filterMap (fun l => (dataPayload l).bind d) := by
  intro ls
  induction ls with
  | nil => rfl
  | cons line rest ih =>
    cases hp : dataPayload line with
    | none => simp [frameEvents, hp, List.filterMap_cons, ih]
    | some p =>
      cases hd : d p with
      | none => simp [frameEvents, hp, hd, List.filterMap_cons, ih]
      | some v => simp [frameEvents, hp, hd, List.filterMap_cons, ih]

theorem feedStr_append {α : Type} (d : List Char → Option α)
    (st : List Char × List α) (s t : List Char) :
    feedStr d st (s ++ t) = feedStr d (feedStr d st s) t := by
  simp [feedStr, List.foldl_append]

theorem feedChunks_eq_join {α : Type} (d : List Char → Option α)
    (st : List Char × List α) : ∀ chunks : List (List Char),
    feedChunks d st chunks = feedStr d st chunks.flatten := by
  intro chunks
  induction chunks generalizing st with
  | nil => rfl
  | cons c cs ih =>
    simp only [feedChunks, List.foldl_cons, List.flatten_cons, feedStr_append]
    exact ih (feedStr d st c)

theorem hasNN_cons (a : Char) (t : List Char) :
    hasNN (a :: t) = (twoNL (a :: t) || hasNN t) := rfl

theorem endsNN_cons (a : Char) (x : List Char) (h : 2 ≤ x.length) :
    endsNN (a :: x) = endsNN x := by
  rcases hx : x.reverse with _ | ⟨y, _ | ⟨z, zs⟩⟩
  · exfalso
    have : x = [] := by simpa using congrArg List.reverse hx
    subst this
    simp at h
  · exfalso
    have : x = [y] := by simpa using congrArg List.reverse hx
    subst this
    simp at h
  · have e : (a :: x).reverse = y :: z :: (zs ++ [a]) := by
      simp [hx]
    simp only [endsNN, e, hx]
    rfl

theorem hasNN_snoc (c : Char) : ∀ l : List Char,
    hasNN l = false → endsNN (l ++ [c]) = false → hasNN (l ++ [c]) = false := by
  intro l
  induction l with
  | nil =>
    intro _ _
    simp [hasNN, twoNL]
  | cons a t ih =>
    intro h1 h2
    rw [hasNN_cons] at h1
    rcases Bool.or_eq_false_iff.mp h1 with ⟨h1a, h1b⟩
    cases t with
    | nil =>
      show hasNN [a, c] = false
      have ht : twoNL [a, c] = (a == '\n' && c == '\n') := rfl
      have hc : hasNN [c] = false := rfl
      rw [hasNN_cons, ht, hc, Bool.or_false, Bool.and_comm]
      simpa [endsNN, twoNL] using h2
    | cons b t' =>
      have hlen : 2 ≤ ((b :: t') ++ [c]).length := by
        simp
      have hends : endsNN ((b :: t') ++ [c]) = false := by
        rw [← endsNN_cons a ((b :: t') ++ [c]) hlen]
        exact h2
      have htail := ih h1b hends
      show hasNN (a :: ((b :: t') ++ [c])) = false
      rw [hasNN_cons]
      have e : twoNL (a :: ((b :: t') ++ [c])) = twoNL (a :: b :: t') := rfl
      rw [e, h1a, htail]
      rfl

theorem hasNN_feedChar {α : Type} (d : List Char → Option α)
    (st : List Char × List α) (c : Char) (h : hasNN st.1 = false) :
    hasNN ((feedChar d st c).1) = false := by
  cases he : endsNN (st.1 ++ [c]) with
  | true => simp [feedChar, he, hasNN]
  | false =>
    simp only [feedChar, he, Bool.false_eq_true, if_false]
    exact hasNN_snoc c st.1 h he

theorem hasNN_feedStr {α : Type} (d : List Char → Option α) :
    ∀ (s : List Char) (st : List Char × List α), hasNN st.1 = false →
      hasNN ((feedStr d st s).1) = false := by
  intro s
  induction s with
  | nil => intro st h; exact h
  | cons c s ih =>
    intro st h
    simp only [feedStr, List.foldl_cons]
    exact ih (feedChar d st c) (hasNN_feedChar d st c h)

theorem sortedB_cons {a : Msg} : ∀ {l : List Msg}, sortedB (a :: l) = true →
    sortedB l = true ∧ ∀ x ∈ l, a.timestamp ≤ x.timestamp := by
  intro l
  induction l generalizing a with
  | nil => intro _; exact ⟨rfl, by simp⟩
  | cons b t ih =>
    intro h
    simp only [sortedB, Bool.and_eq_true, decide_eq_true_eq] at h
    rcases h with ⟨hab, hbt⟩
    have hb : sortedB (b :: t) = true := by
      simpa [sortedB] using hbt
    rcases ih hb with ⟨_, hall⟩
    refine ⟨hb, ?_⟩
    intro x hx
    rcases List.mem_cons.mp hx with rfl | hx'
    · exact hab
    · exact le_trans hab (hall x hx')

theorem maxTs_cons (m : Msg) (l : List Msg) :
    maxTs (m :: l) = max m.timestamp (maxTs l) := by
  simp [maxTs]

theorem le_maxTs : ∀ (batch : List Msg), ∀ x ∈ batch, x.timestamp ≤ maxTs batch := by
  intro batch
  induction batch with
  | nil => intro x hx; cases hx
  | cons m l ih =>
    intro x hx
    rcases List.mem_cons.mp hx with rfl | hx'
    · rw [maxTs_cons]; exact le_max_left _ _
    · rw [maxTs_cons]; exact le_trans (ih x hx') (le_max_right _ _)

theorem runBatch_cursor_mem (c : Nat) : ∀ batch : List Msg,
    (runBatch c batch).cursor = c ∨
      ∃ m ∈ batch, (runBatch c batch).cursor = m.timestamp := by
  intro batch
  induction batch generalizing c with
  | nil => exact Or.inl rfl
  | cons m rest ih =>
    cases ht : (routerStep m.text).terminated with
    | true =>
      right
      exact ⟨m, List.mem_cons_self m rest, by simp [runBatch, ht]⟩
    | false =>
      rcases ih m.timestamp with h | ⟨x, hx, hcur⟩
      · right
        exact ⟨m, List.mem_cons_self m rest, by simp [runBatch, ht, h]⟩
      · right
        exact ⟨x, List.mem_cons_of_mem m hx, by simp [runBatch, ht, hcur]⟩

theorem runBatch_cursor_ge (c : Nat) (batch : List Msg)
    (h : ∀ m ∈ batch, c ≤ m.timestamp) : c ≤ (runBatch c batch).cursor := by
  rcases runBatch_cursor_mem c batch with hc | ⟨m, hm, hc⟩
  · rw [hc]
  · rw [hc]; exact h m hm

theorem runBatch_dispatched_sublist (c : Nat) : ∀ batch : List Msg,
    List.Sublist (runBatch c batch).dispatched batch := by
  intro batch
  induction batch generalizing c with
  | nil => simp [runBatch]
  | cons m rest ih =>
    cases ht : (routerStep m.text).terminated with
    | true =>
      simp only [runBatch, ht, if_true]
      exact (List.nil_sublist rest).cons₂ m
    | false =>
      simp only [runBatch, ht, Bool.false_eq_true, if_false]
      exact (ih m.timestamp).cons₂ m

theorem runBatch_ts_le_cursor (c : Nat) : ∀ batch : List Msg,
    sortedB batch = true →
    ∀ m ∈ (runBatch c batch).dispatched, m.timestamp ≤ (runBatch c batch).cursor := by
  intro batch
  induction batch generalizing c with
  | nil => intro _ m hm; simp [runBatch] at hm
  | cons x rest ih =>
    intro hs m hm
    rcases sortedB_cons hs with ⟨hrest, hall⟩
    cases ht : (routerStep x.text).terminated with
    | true =>
      simp only [runBatch, ht, if_true] at hm ⊢
      rcases List.mem_singleton.mp hm with rfl
      exact le_refl _
    | false =>
      simp only [runBatch, ht, Bool.false_eq_true, if_false] at hm ⊢
      rcases List.mem_cons.mp hm with rfl | hm'
      · exact runBatch_cursor_ge m.timestamp rest (fun y hy => hall y hy)
      · exact ih x.timestamp hrest m hm'

theorem routerStep_sends_true {t : List Char} (h : (routerStep t).terminated = true) :
    (routerStep t).sends = [farewellText] := by
  cases ht : isTerminate t with
  | true => simp [routerStep, ht]
  | false => rw [routerStep_terminated, ht] at h; cases h

theorem routerStep_sends_false {t : List Char} (h : (routerStep t).terminated = false) :
    (routerStep t).sends = [receivedText t] := by
  cases ht : isTerminate t with
  | true => rw [routerStep_terminated, ht] at h; cases h
  | false => simp [routerStep, ht]

theorem validSeq_cons {c : Nat} {f : FetchResult} {fs : List FetchResult}
    (h : validSeq c (f :: fs) = true) :
    sortedB (pollMessages f) = true
      ∧ (∀ m ∈ pollMessages f, c < m.timestamp)
      ∧ validSeq (runBatch c (pollMessages f)).cursor fs = true := by
  simp only [validSeq, Bool.and_eq_true, List.all_eq_true, decide_eq_true_eq] at h
  exact ⟨h.1.1, h.1.2, h.2⟩

theorem runSession_cursor_ge (c : Nat) : ∀ fs : List FetchResult,
    validSeq c fs = true → c ≤ (runSession c fs).cursor := by
  intro fs
  induction fs generalizing c with
  | nil => intro _; exact le_refl c
  | cons f fs ih =>
    intro h
    rcases validSeq_cons h with ⟨_, hgt, hv⟩
    have hge1 : c ≤ (runBatch c (pollMessages f)).cursor :=
      runBatch_cursor_ge c _ (fun m hm => le_of_lt (hgt m hm))
    cases hterm : (runBatch c (pollMessages f)).terminated with
    | true => simpa [runSession, hterm] using hge1
    | false =>
      simp only [runSession, hterm, Bool.false_eq_true, if_false]
      exact le_trans hge1 (ih _ hv)

theorem runSession_dispatch_gt (c : Nat) : ∀ fs : List FetchResult,
    validSeq c fs = true →
    ∀ m ∈ (runSession c fs).dispatched, c < m.timestamp := by
  intro fs
  induction fs generalizing c with
  | nil => intro _ m hm; simp [runSession] at hm
  | cons f fs ih =>
    intro h m hm
    rcases validSeq_cons h with ⟨_, hgt, hv⟩
    have hbatch : ∀ x ∈ (runBatch c (pollMessages f)).dispatched, c < x.timestamp :=
      fun x hx => hgt x ((runBatch_dispatched_sublist c _).mem hx)
    cases hterm : (runBatch c (pollMessages f)).terminated with
    | true =>
      simp only [runSession, hterm, if_true] at hm
      exact hbatch m hm
    | false =>
      simp only [runSession, hterm, Bool.false_eq_true, if_false] at hm
      rcases List.mem_append.mp hm with hm1 | hm2
      · exact hbatch m hm1
      · have hge1 : c ≤ (runBatch c (pollMessages f)).cursor :=
          runBatch_cursor_ge c _ (fun x hx => le_of_lt (hgt x hx))
        exact lt_of_le_of_lt hge1 (ih _ hv m hm2)

theorem runSession_ts_le_cursor (c : Nat) : ∀ fs : List FetchResult,
    validSeq c fs = true →
    ∀ m ∈ (runSession c fs).dispatched, m.timestamp ≤ (runSession c fs).cursor := by
  intro fs
  induction fs generalizing c with
  | nil => intro _ m hm; simp [runSession] at hm
  | cons f fs ih =>
    intro h m hm
    rcases validSeq_cons h with ⟨hs, _, hv⟩
    cases hterm : (runBatch c (pollMessages f)).terminated with
    | true =>
      simp only [runSession, hterm, if_true] at hm ⊢
      exact runBatch_ts_le_cursor c _ hs m hm
    | false =>
      simp only [runSession, hterm, Bool.false_eq_true, if_false] at hm ⊢
      rcases List.mem_append.mp hm with hm1 | hm2
      · exact le_trans (runBatch_ts_le_cursor c _ hs m hm1) (runSession_cursor_ge _ fs hv)
      · exact ih _ hv m hm2

theorem cursorTrace_chain (c : Nat) : ∀ fs : List FetchResult,
    validSeq c fs = true → List.Chain' (· ≤ ·) (c :: cursorTrace c fs) := by
  intro fs
  induction fs generalizing c with
  | nil => intro _; simp [cursorTrace]
  | cons f fs ih =>
    intro h
    rcases validSeq_cons h with ⟨_, hgt, hv⟩
    have hge1 : c ≤ (runBatch c (pollMessages f)).cursor :=
      runBatch_cursor_ge c _ (fun m hm => le_of_lt (hgt m hm))
    cases hterm : (runBatch c (pollMessages f)).terminated with
    | true =>
      simp only [cursorTrace, hterm, if_true]
      exact List.chain'_cons.mpr ⟨hge1, List.chain'_singleton _⟩
    | false =>
      simp only [cursorTrace, hterm, Bool.false_eq_true, if_false]
      exact List.chain'_cons.mpr ⟨hge1, ih _ hv⟩

theorem runSession_count_le_one (c : Nat) : ∀ (fs : List FetchResult) (m : Msg),
    validSeq c fs = true → (∀ f ∈ fs, (pollMessages f).Nodup) →
    ((runSession c fs).dispatched).count m ≤ 1 := by
  intro fs
  induction fs generalizing c with
  | nil => intro m _ _; simp [runSession]
  | cons f fs ih =>
    intro m h hnd
    rcases validSeq_cons h with ⟨hs, _, hv⟩
    have hcnt1 : ((runBatch c (pollMessages f)).dispatched).count m ≤ 1 :=
      le_trans ((runBatch_dispatched_sublist c _).count_le m)
        (List.nodup_iff_count_le_one.mp (hnd f (List.mem_cons_self f fs)) m)
    cases hterm : (runBatch c (pollMessages f)).terminated with
    | true =>
      simp only [runSession, hterm, if_true]
      exact hcnt1
    | false =>
      simp only [runSession, hterm, Bool.false_eq_true, if_false]
      rw [List.count_append]
      by_cases hm : m ∈ (runBatch c (pollMessages f)).dispatched
      · have hle : m.timestamp ≤ (runBatch c (pollMessages f)).cursor :=
          runBatch_ts_le_cursor c _ hs m hm
        have hnot : m ∉ (runSession (runBatch c (pollMessages f)).cursor fs).dispatched := by
          intro hmem
          exact absurd (runSession_dispatch_gt _ fs hv m hmem) (not_lt.mpr hle)
        rw [List.count_eq_zero.mpr hnot]
        simpa using hcnt1
      · rw [List.count_eq_zero.mpr hm]
        simpa using ih _ m hv (fun g hg => hnd g (List.mem_cons_of_mem f hg))

theorem runSession_replicate_failure (r : FetchResult) (c : Nat)
    (h : r.success = false) : ∀ n : Nat,
    runSession c (List.replicate n r) = ⟨c, [], false⟩ := by
  intro n
  have hp : pollMessages r = [] := by
    simp [pollMessages, h]
  induction n with
  | zero => rfl
  | succ n ih =>
    rw [List.replicate_succ]
    simp only [runSession, hp, runBatch, Bool.false_eq_true, if_false]
    rw [ih]
    rfl

theorem runBatch_cons_true {c : Nat} {m : Msg} {rest : List Msg}
    (h : (routerStep m.text).terminated = true) :
    runBatch c (m :: rest) = ⟨m.timestamp, [m], (routerStep m.text).sends, true⟩ := by
  simp only [runBatch, h, if_true]

theorem runBatch_cons_false {c : Nat} {m : Msg} {rest : List Msg}
    (h : (routerStep m.text).terminated = false) :
    runBatch c (m :: rest) =
      ⟨(runBatch m.timestamp rest).cursor,
       m :: (runBatch m.timestamp rest).dispatched,
       (routerStep m.text).sends ++ (runBatch m.timestamp rest).sends,
       (runBatch m.timestamp rest).terminated⟩ := by
  simp only [runBatch, h, Bool.false_eq_true, if_false]

theorem runBatch_cursor_eq_maxTs (c : Nat) : ∀ batch : List Msg,
    sortedB batch = true → batch ≠ [] →
    batch.all (fun m => !(routerStep m.text).terminated) = true →
    (runBatch c batch).cursor = maxTs batch := by
  intro batch
  induction batch generalizing c with
  | nil => intro _ hne _; exact absurd rfl hne
  | cons m rest ih =>
    intro hs _ hall
    simp only [List.all_cons, Bool.and_eq_true, Bool.not_eq_true'] at hall
    rcases hall with ⟨hm, hrest⟩
    rcases sortedB_cons hs with ⟨hsrest, hge⟩
    cases rest with
    | nil =>
      rw [runBatch_cons_false hm]
      simp [runBatch, maxTs]
    | cons m2 rest2 =>
      have hcur := ih m.timestamp hsrest (by simp) (by simpa using hrest)
      rw [runBatch_cons_false hm]
      show (runBatch m.timestamp (m2 :: rest2)).cursor = maxTs (m :: m2 :: rest2)
      rw [hcur, maxTs_cons]
      have hle : m.timestamp ≤ maxTs (m2 :: rest2) :=
        le_trans (hge m2 (List.mem_cons_self m2 rest2))
          (le_maxTs _ m2 (List.mem_cons_self m2 rest2))
      exact (Nat.max_eq_right hle).symm

/-! ## The claims -/

/-- C1: an inbound user message takes the farewell-and-terminate path iff
its lowercased text contains `"goodbye"` or `"bye"` as a substring; when
matched, exactly the one fixed farewell is sent and the session
terminates; when not matched, exactly one `"Received: " ++ text` reply is
sent and the session continues. The four example texts of the spec all
terminate. -/
theorem router_goodbye_protocol :
    (∀ text : List Char,
      ((routerStep text).terminated = true ↔
        (IsSub "goodbye".toList (pyLower text) ∨ IsSub "bye".toList (pyLower text)))
      ∧ ((routerStep text).terminated = true → (routerStep text).sends = [farewellText])
      ∧ ((routerStep text).terminated = false →
          (routerStep text).sends = [receivedText text]))
    ∧ (routerStep "bye".toList).terminated = true
    ∧ (routerStep "Goodbye!".toList).terminated = true
    ∧ (routerStep "say bye now".toList).terminated = true
    ∧ (routerStep "byebye program".toList).terminated = true := by
  refine ⟨fun text => ⟨?_, fun h => routerStep_sends_true h, fun h => routerStep_sends_false h⟩,
    by decide, by decide, by decide, by decide⟩
  rw [routerStep_terminated]
  simp [isTerminate, Bool.or_eq_true, isSubL_iff]

/-- Witness for C1: the non-terminating text `"ping"` gets exactly the
echo reply and the session continues. -/
theorem router_goodbye_protocol_witness :
    (routerStep "ping".toList).terminated = false
    ∧ (routerStep "ping".toList).sends = [receivedText "ping".toList] := by
  refine ⟨by decide, ?_⟩
  exact (router_goodbye_protocol.1 "ping".toList).2.2 (by decide)

/-- C2 refuted: on a frame with two data lines whose payloads both parse
(`"data: 1\ndata: 2\n\n"`), the parser emits two decoded events, not at
most one — each data line is parsed separately, nothing is
concatenated. -/
theorem sse_frame_concat_refuted :
    processFrame parseDigits "data: 1\ndata: 2\n\n".toList = [1, 2]
    ∧ ¬((processFrame parseDigits "data: 1\ndata: 2\n\n".toList).length ≤ 1) := by
  decide

/-- C2 (amended): for every completed frame, the parser takes the bytes
after the `"data: "` marker of each data line and parses each such
payload separately as its own JSON value, emitting one decoded event per
successfully parsed data line in order and ignoring all lines that do not
begin with the marker. -/
theorem sse_frame_per_line_decode {α : Type} (d : List Char → Option α)
    (frame : List Char) :
    processFrame d frame
      = (splitNL (pyStrip frame)).filterMap (fun l => (dataPayload l).bind d) :=
  frameEvents_eq_filterMap d _

/-- C3: the decoded output of the Stream Frame Parser depends only on the
delivered byte sequence, not on how it is split into transport chunks. -/
theorem stream_chunk_invariance {α : Type} (d : List Char → Option α)
    (st : List Char × List α) (cs₁ cs₂ : List (List Char))
    (h : cs₁.flatten = cs₂.flatten) :
    feedChunks d st cs₁ = feedChunks d st cs₂ := by
  rw [feedChunks_eq_join, feedChunks_eq_join, h]

/-- Witness for C3: one frame delivered in four ragged chunks decodes the
same as delivered whole. -/
theorem stream_chunk_invariance_witness :
    feedChunks parseDigits (([], []) : List Char × List Nat)
        ["d".toList, "ata: 7".toList, "\n".toList, "\n".toList]
      = feedChunks parseDigits (([], []) : List Char × List Nat)
        ["data: 7\n\n".toList] :=
  stream_chunk_invariance parseDigits _ _ _ (by decide)

/-- C4: for a fully processed non-empty sorted batch the cursor ends at
the maximum timestamp of the batch; within a sorted batch the cursor ends
at or above every dispatched timestamp; along any run whose fetches honour
the strict `since` contract the cursor sequence is monotone
non-decreasing, and every processed message's timestamp is bounded by the
final cursor. -/
theorem polling_cursor_advances :
    (∀ (c : Nat) (batch : List Msg), sortedB batch = true → batch ≠ [] →
        batch.all (fun m => !(routerStep m.text).terminated) = true →
        (runBatch c batch).cursor = maxTs batch)
    ∧ (∀ (c : Nat) (batch : List Msg), sortedB batch = true →
        ∀ m ∈ (runBatch c batch).dispatched, m.timestamp ≤ (runBatch c batch).cursor)
    ∧ (∀ (c : Nat) (fs : List FetchResult), validSeq c fs = true →
        List.Chain' (· ≤ ·) (c :: cursorTrace c fs))
    ∧ (∀ (c : Nat) (fs : List FetchResult), validSeq c fs = true →
        ∀ m ∈ (runSession c fs).dispatched, m.timestamp ≤ (runSession c fs).cursor) :=
  ⟨fun c batch => runBatch_cursor_eq_maxTs c batch,
   fun c batch => runBatch_ts_le_cursor c batch,
   fun c fs => cursorTrace_chain c fs,
   fun c fs => runSession_ts_le_cursor c fs⟩

/-- Witness for C4 at concrete inputs. -/
theorem polling_cursor_advances_witness :
    (runBatch 3 [⟨"user", "hi".toList, 5⟩, ⟨"user", "ok".toList, 9⟩]).cursor
      = maxTs [⟨"user", "hi".toList, 5⟩, ⟨"user", "ok".toList, 9⟩]
    ∧ List.Chain' (· ≤ ·) (3 :: cursorTrace 3 [⟨true, [⟨"user", "hi".toList, 5⟩]⟩]) :=
  ⟨polling_cursor_advances.1 3 _ (by decide) (by decide) (by decide),
   polling_cursor_advances.2.2.1 3 _ (by decide)⟩

/-- C5: under the strict exclusive-lower-bound `since` contract (and each
fetch listing each message once), a message is dispatched to the router at
most once across the lifetime of a polling session, for any chunking of
fetch results. -/
theorem polling_no_duplicate_delivery (c : Nat) (fs : List FetchResult) (m : Msg)
    (hv : validSeq c fs = true) (hnd : ∀ f ∈ fs, (pollMessages f).Nodup) :
    ((runSession c fs).dispatched).count m ≤ 1 :=
  runSession_count_le_one c fs m hv hnd

/-- Witness for C5: a two-cycle run delivering one message per cycle. -/
theorem polling_no_duplicate_delivery_witness :
    ((runSession 0 [⟨true, [⟨"user", "hi".toList, 5⟩]⟩,
        ⟨true, [⟨"user", "yo".toList, 9⟩]⟩]).dispatched).count
        ⟨"user", "hi".toList, 5⟩ ≤ 1 :=
  polling_no_duplicate_delivery 0 _ _ (by decide) (by decide)

/-- C6: a failed fetch yields the empty message list, dispatches nothing,
leaves the cursor unchanged, and the loop keeps retrying at the fixed
interval with no backoff and no retry cap: any number of consecutive
failures leaves the session state unchanged and alive. -/
theorem polling_failed_fetch (r : FetchResult) (c : Nat) (h : r.success = false) :
    pollMessages r = []
    ∧ runBatch c (pollMessages r) = ⟨c, [], [], false⟩
    ∧ (∀ n : Nat, runSession c (List.replicate n r) = ⟨c, [], false⟩)
    ∧ (∀ n : Nat, waitBeforeCycle n = POLL_INTERVAL) := by
  have hp : pollMessages r = [] := by simp [pollMessages, h]
  exact ⟨hp, by rw [hp]; rfl, runSession_replicate_failure r c h, fun _ => rfl⟩

/-- Witness for C6: three consecutive failed fetches leave cursor 7
untouched. -/
theorem polling_failed_fetch_witness :
    pollMessages ⟨false, [⟨"user", "hi".toList, 5⟩]⟩ = []
    ∧ runSession 7 (List.replicate 3 ⟨false, [⟨"user", "hi".toList, 5⟩]⟩)
        = ⟨7, [], false⟩ := by
  have h := polling_failed_fetch ⟨false, [⟨"user", "hi".toList, 5⟩]⟩ 7 rfl
  exact ⟨h.1, h.2.2.1 3⟩

/-- C7: a completed frame all of whose data-line payloads fail to decode
is silently dropped: no event is emitted, no exception escapes (the step
is a total function), the buffer is cleared, and the parser continues. -/
theorem stream_bad_json_dropped {α : Type} (d : List Char → Option α)
    (buf : List Char) (evs : List α) (c : Char)
    (hterm : endsNN (buf ++ [c]) = true)
    (hbad : ∀ l ∈ splitNL (pyStrip (buf ++ [c])), (dataPayload l).bind d = none) :
    feedChar d (buf, evs) c = ([], evs) := by
  have hempty : processFrame d (buf ++ [c]) = [] := by
    simp only [processFrame, frameEvents_eq_filterMap]
    exact List.filterMap_eq_nil_iff.mpr hbad
  simp [feedChar, hterm, hempty]

/-- Witness for C7: the frame `"data: x\n\n"` (payload `"x"` is not valid
JSON) is dropped with the buffer cleared. -/
theorem stream_bad_json_dropped_witness :
    feedChar parseDigits ("data: x\n".toList, ([] : List Nat)) '\n' = ([], []) :=
  stream_bad_json_dropped parseDigits "data: x\n".toList [] '\n' (by decide) (by decide)

/-- C8: if the readiness query fails at the transport level or reports an
absent or empty `filePath`, `check_status` returns false and the run exits
with code 1 having attempted no registration and no message send. -/
theorem bootstrap_gate (r : StatusResult) (name : String)
    (h : (∃ e, r = .failure e)
      ∨ ∃ st, r = .ok st ∧ (st.filePath = none ∨ st.filePath = some "")) :
    check_status r = false ∧ bootstrap r name = ([], some 1) := by
  have hc : check_status r = false := by
    rcases h with ⟨e, rfl⟩ | ⟨st, rfl, hst | hst⟩
    · rfl
    · simp [check_status, truthyPath, hst]
    · rw [show check_status (.ok st) = truthyPath st.filePath from rfl, hst]
      decide
  exact ⟨hc, by simp [bootstrap, hc]⟩

/-- Witness for C8: a transport failure gates the bootstrap. -/
theorem bootstrap_gate_witness :
    check_status (.failure "connection refused") = false
    ∧ bootstrap (.failure "connection refused") "Python Agent" = ([], some 1) :=
  bootstrap_gate (.failure "connection refused") "Python Agent"
    (Or.inl ⟨"connection refused", rfl⟩)

/-- C9: when the terminator arrives the whole buffer is consumed as the
frame and the buffer is reset to empty (so the unconsumed remainder is
empty), otherwise the byte is only appended; and for every input byte
sequence fed from the start, the buffer never contains the two-newline
terminator, so the remainder at extraction time is always empty. -/
theorem frame_buffer_reset :
    (∀ (α : Type) (d : List Char → Option α) (buf : List Char) (evs : List α) (c : Char),
        endsNN (buf ++ [c]) = true →
        feedChar d (buf, evs) c = ([], evs ++ processFrame d (buf ++ [c])))
    ∧ (∀ (α : Type) (d : List Char → Option α) (buf : List Char) (evs : List α) (c : Char),
        endsNN (buf ++ [c]) = false →
        feedChar d (buf, evs) c = (buf ++ [c], evs))
    ∧ (∀ (α : Type) (d : List Char → Option α) (s : List Char),
        hasNN ((feedStr d (([] : List Char), ([] : List α)) s).1) = false) := by
  refine ⟨?_, ?_, ?_⟩
  · intro α d buf evs c h
    simp [feedChar, h]
  · intro α d buf evs c h
    simp [feedChar, h]
  · intro α d s
    exact hasNN_feedStr d s _ rfl

/-- Witness for C9: completing the frame `"data: 7\n\n"` consumes the
whole buffer and resets it. -/
theorem frame_buffer_reset_witness :
    feedChar parseDigits ("data: 7\n".toList, ([] : List Nat)) '\n'
      = ([], [] ++ processFrame parseDigits ("data: 7\n".toList ++ ['\n'])) :=
  frame_buffer_reset.1 Nat parseDigits "data: 7\n".toList [] '\n' (by decide)

/-- C10: if a polling batch contains a terminating message, the loop
dispatches exactly the prefix up to and including it, replies to the
prefix and sends the farewell, returns immediately, and leaves the cursor
at the terminating message's timestamp — nothing after it is dispatched
or replied to. -/
theorem polling_terminating_batch (c : Nat) : ∀ (pre : List Msg) (m : Msg) (post : List Msg),
    (∀ x ∈ pre, (routerStep x.text).terminated = false) →
    (routerStep m.text).terminated = true →
    runBatch c (pre ++ m :: post) =
      ⟨m.timestamp, pre ++ [m],
        (pre.map fun x => receivedText x.text) ++ [farewellText], true⟩ := by
  intro pre
  induction pre generalizing c with
  | nil =>
    intro m post _ hm
    simp only [List.nil_append, List.map_nil, runBatch, hm, if_true]
    rw [routerStep_sends_true hm]
  | cons x pre' ih =>
    intro m post hpre hm
    have hx : (routerStep x.text).terminated = false := hpre x (List.mem_cons_self x pre')
    have hrec := ih x.timestamp m post (fun y hy => hpre y (List.mem_cons_of_mem x hy)) hm
    show runBatch c (x :: (pre' ++ m :: post)) = _
    rw [runBatch_cons_false hx, hrec, routerStep_sends_false hx]
    simp

/-- Witness for C10: with batch `[hi@1, bye@2, later@3]` the cursor stops
at 2 (not the batch maximum 3) and `later` is never dispatched. -/
theorem polling_terminating_batch_witness :
    runBatch 0 [⟨"user", "hi".toList, 1⟩, ⟨"user", "bye".toList, 2⟩,
        ⟨"user", "later".toList, 3⟩]
      = ⟨2, [⟨"user", "hi".toList, 1⟩, ⟨"user", "bye".toList, 2⟩],
          [receivedText "hi".toList, farewellText], true⟩
    ∧ maxTs [⟨"user", "hi".toList, 1⟩, ⟨"user", "bye".toList, 2⟩,
        ⟨"user", "later".toList, 3⟩] = 3 := by
  constructor
  · have h := polling_terminating_batch 0 [⟨"user", "hi".toList, 1⟩]
      ⟨"user", "bye".toList, 2⟩ [⟨"user", "later".toList, 3⟩] (by decide) (by decide)
    simpa using h
  · decide
